import Mathlib

/-!
Verification of the documentation-to-memory extraction pipeline of
memory-hook-bench.  Strings from the JavaScript side are modelled as
`List Char`; JavaScript numbers that are used as integers (cursor indices,
exit codes, chunk sizes) are modelled as `Nat`/`Int`.  Every definition in
the `MHB` namespace is a direct translation of a source function, named
after it; definitions whose doc comment says `Spec model` instead follow
the specification's words, for comparison against the source translation.
-/

namespace MHB

/-- The set of characters matched by JavaScript's `\s` character class
(also the set stripped by `String.prototype.trim`): ASCII whitespace,
NBSP, and the unicode space/line separators. -/
def isJsWs (c : Char) : Bool :=
  c = ' ' || c = '\t' || c = '\n' || c = '\r' || c = '\x0b' || c = '\x0c' ||
  c.toNat = 0xa0 || c.toNat = 0x1680 ||
  (0x2000 <= c.toNat && c.toNat <= 0x200a) ||
  c.toNat = 0x2028 || c.toNat = 0x2029 || c.toNat = 0x202f || c.toNat = 0x205f ||
  c.toNat = 0x3000 || c.toNat = 0xfeff

/-- JavaScript line terminators (not matched by `.` in a regex). -/
def isLineTerm (c : Char) : Bool :=
  c = '\n' || c = '\r' || c.toNat = 0x2028 || c.toNat = 0x2029

/-- `String.prototype.trim`: strip leading and trailing `\s` characters. -/
def jsTrim (s : List Char) : List Char :=
  ((s.dropWhile isJsWs).reverse.dropWhile isJsWs).reverse

/-- ASCII case lowering, used to model the case-insensitive comparisons the
source performs (`toLowerCase`, `/i` regex flags); all patterns involved
are ASCII. -/
def lowerAscii (c : Char) : Char :=
  if 'A' ≤ c ∧ c ≤ 'Z' then Char.ofNat (c.toNat + 32) else c

def lowerStr (s : List Char) : List Char := s.map lowerAscii

/-- JavaScript `\w` character class. -/
def isWordChar (c : Char) : Bool :=
  ('a' ≤ c && c ≤ 'z') || ('A' ≤ c && c ≤ 'Z') || ('0' ≤ c && c ≤ '9') || c = '_'

/-- `s.slice(a, b)` restricted to `0 ≤ a ≤ b`: the sublist of `s` from
index `a` (inclusive) to `b` (exclusive), clamped to the length. -/
def sliceN (s : List Char) (a b : Nat) : List Char :=
  (s.drop a).take (b - a)

/-- Index of the first occurrence of `ch` in `t`. -/
def firstIdxOf : List Char → Char → Option Nat
  | [], _ => none
  | c :: rest, ch =>
    if c = ch then some 0 else (firstIdxOf rest ch).map (· + 1)

/-- Index of the last occurrence of `ch` in `t`. -/
def lastIdxOf : List Char → Char → Option Nat
  | [], _ => none
  | c :: rest, ch =>
    match lastIdxOf rest ch with
    | some j => some (j + 1)
    | none => if c = ch then some 0 else none

/-- `l` enumerated with indices starting at `n` (the loop counter of the
various `for (let i = …)` loops). -/
def enumFromL (n : Nat) : List α → List (Nat × α)
  | [] => []
  | a :: as => (n, a) :: enumFromL (n + 1) as

/-- The backtick character (kept out of string literals). -/
def backtick : Char := Char.ofNat 96

/-! ### Chunker (`chunkText`, src/docs-to-memories/chunking) -/

/-- One index of `String.prototype.slice(a, b)`: negative values count from
the end, and everything is clamped to `[0, len]`. -/
def jsSliceIdx (len i : Int) : Int :=
  if i < 0 then max (len + i) 0 else min i len

/-- `s.slice(a, b)` with JavaScript semantics (negative indices, clamping). -/
def jsSlice (s : List Char) (a b : Int) : List Char :=
  let len : Int := s.length
  let f := jsSliceIdx len a
  let t := jsSliceIdx len b
  if f < t then (s.drop f.toNat).take (t - f).toNat else []

/-- The `while (start < input.length)` loop of `chunkText`, one fuel unit
per iteration; `none` means the fuel ran out (the loop is still running
after `fuel` iterations).  `start` is an `Int` because with `overlap >
chunkSize` the JavaScript variable `start` goes negative. -/
def chunkLoop (input : List Char) (chunkSize overlap : Int) :
    Nat → Int → List (List Char) → Option (List (List Char))
  | 0, _, _ => none
  | fuel + 1, start, acc =>
    if start < (input.length : Int) then
      let e := min (start + chunkSize) (input.length : Int)
      let acc2 := acc ++ [jsSlice input start e]
      let start2 := e - overlap
      if (input.length : Int) - overlap ≤ start2 then some acc2
      else chunkLoop input chunkSize overlap fuel start2 acc2
    else some acc

/-- `chunkText(input, chunkSize, overlap)` run for at most `fuel` loop
iterations. -/
def chunkText (input : List Char) (chunkSize overlap : Int) (fuel : Nat) :
    Option (List (List Char)) :=
  chunkLoop input chunkSize overlap fuel 0 []

/-! ### Structural parser (`parseMarkdownSections`) -/

structure Section where
  level : Nat
  title : List Char
  lineStart : Nat
  lineEnd : Nat
  content : List Char
deriving DecidableEq

/-- `line.match(/^(#{1,4})\s+(.+)$/)`: `some (level, raw second group)` when
the line is a heading.  `.` matches no line terminator and the regex is
anchored at both ends, so after the greedy `\s+` run the remainder must be
non-empty and terminator free; if the whole remainder after the marker run
is whitespace, `\s+` backtracks one character and `(.+)$` matches just the
final character (when it is not a line terminator). -/
def parseHeaderLine (line : List Char) : Option (Nat × List Char) :=
  let k := (line.takeWhile (· = '#')).length
  if 1 ≤ k ∧ k ≤ 4 then
    let r := line.drop k
    match r.head? with
    | none => none
    | some c =>
      if isJsWs c then
        let rest := r.dropWhile isJsWs
        if rest.isEmpty then
          if 2 ≤ r.length && !isLineTerm (r.getLastD ' ') then
            some (k, [r.getLastD ' '])
          else none
        else
          if rest.any isLineTerm then none else some (k, rest)
      else none
  else none

/-- Join lines with a newline (`lines.join("\n")`). -/
def joinNL : List (List Char) → List Char
  | [] => []
  | [l] => l
  | l :: rest => l ++ '\n' :: joinNL rest

/-- `lines.slice(a, b).join("\n").trim()`: the content stored in a section
covering lines `a` (inclusive) to `b` (exclusive). -/
def contentOf (lines : List (List Char)) (a b : Nat) : List Char :=
  jsTrim (joinNL ((lines.drop a).take (b - a)))

/-- `title.replace(/`+"`"+`/g, "")` — written here as a filter. -/
def stripTicks (t : List Char) : List Char := t.filter (· ≠ backtick)

/-- The line loop of `parseMarkdownSections`: `cur` is the open section
(start line, level, raw title), `acc` the sections pushed so far.  On a
heading the open section is closed with content from the lines strictly
between the two heading lines; at end of input the open section is closed
with the remaining lines. -/
def sectionsGo (lines : List (List Char)) :
    List (Nat × List Char) → Option (Nat × Nat × List Char) → List Section → List Section
  | [], none, acc => acc
  | [], some (st, lvl, tl), acc =>
    acc ++ [⟨lvl, stripTicks tl, st, lines.length - 1, contentOf lines (st + 1) lines.length⟩]
  | (i, line) :: rest, cur, acc =>
    match parseHeaderLine line with
    | none => sectionsGo lines rest cur acc
    | some (lvl, tl) =>
      match cur with
      | none => sectionsGo lines rest (some (i, lvl, tl)) acc
      | some (st, l0, t0) =>
        sectionsGo lines rest (some (i, lvl, tl))
          (acc ++ [⟨l0, stripTicks t0, st, i - 1, contentOf lines (st + 1) i⟩])

/-- `parseMarkdownSections(content)`. -/
def parseMarkdownSections (c : List Char) : List Section :=
  let lines := c.splitOn '\n'
  sectionsGo lines (enumFromL 0 lines) none []

/-! ### Candidate classifier (`shouldExtract`) -/

/-- Substring occurrence test. -/
def hasSub : List Char → List Char → Bool
  | t, pat =>
    pat.isPrefixOf t ||
    (match t with
     | [] => false
     | _ :: rest => hasSub rest pat)

/-- `pat.isPrefixOf t` up to ASCII case. -/
def startsWithCI (t pat : List Char) : Bool :=
  (lowerStr pat).isPrefixOf (lowerStr t)

/-- Case-insensitive substring test: `/lit/i.test(t)` for a literal. -/
def containsCI (t pat : List Char) : Bool :=
  hasSub (lowerStr t) (lowerStr pat)

/-- `\bword\b` holds at the head of `t`, where `prev` is the character just
before `t` (if any): the literal matches case-insensitively and both
neighbours are non-word characters. -/
def boundedHereCI (prev : Option Char) (t word : List Char) : Bool :=
  startsWithCI t word &&
  (match prev with | none => true | some p => !isWordChar p) &&
  (match (t.drop word.length).head? with | none => true | some c => !isWordChar c)

/-- `/\bword\b/i.test(t)` for a literal `word` beginning and ending in word
characters. -/
def existsBoundedCI : Option Char → List Char → List Char → Bool
  | prev, t, word =>
    boundedHereCI prev t word ||
    (match t with
     | [] => false
     | c :: rest => existsBoundedCI (some c) rest word)

/-- `/prefer\s+\w+\s+over/i` holds at the head of `t`.  Since `\s` and `\w`
are disjoint and `over` begins with a word character, greedy maximal runs
are the only possible split. -/
def preferOverAt (t : List Char) : Bool :=
  if startsWithCI t ("prefer".data) then
    let r1 := t.drop 6
    let w1 := r1.takeWhile isJsWs
    let r2 := r1.drop w1.length
    let w2 := r2.takeWhile isWordChar
    let r3 := r2.drop w2.length
    let w3 := r3.takeWhile isJsWs
    let r4 := r3.drop w3.length
    !w1.isEmpty && !w2.isEmpty && !w3.isEmpty && startsWithCI r4 ("over".data)
  else false

/-- `/prefer\s+\w+\s+over/i.test(t)`. -/
def hasPreferOver : List Char → Bool
  | [] => preferOverAt []
  | t@(_ :: rest) => preferOverAt t || hasPreferOver rest

/-- The `.*\bwhen\b` tail of the error/when pattern: scan forward over
non-terminator characters (`.` crosses no newline) looking for a
word-bounded `when`. -/
def whenFromCI : Option Char → List Char → Bool
  | prev, t =>
    boundedHereCI prev t ("when".data) ||
    (match t with
     | [] => false
     | c :: rest => !isLineTerm c && whenFromCI (some c) rest)

/-- Position scan for `/\berror\b.*\bwhen\b/i`. -/
def errorWhenGo : Option Char → List Char → Bool
  | prev, t =>
    (boundedHereCI prev t ("error".data) &&
      whenFromCI ((t.drop 4).head?) (t.drop 5)) ||
    (match t with
     | [] => false
     | c :: rest => errorWhenGo (some c) rest)

/-- `/\berror\b.*\bwhen\b/i.test(t)`. -/
def hasErrorWhen (t : List Char) : Bool := errorWhenGo none t

/-- Three backticks. -/
def fenceStr : List Char := List.replicate 3 backtick

/-- `/`+"```"+`\w+/.test(t)`: a fenced code block opener with a language. -/
def hasCodeBlock : List Char → Bool
  | [] => false
  | t@(_ :: rest) =>
    (fenceStr.isPrefixOf t &&
      (match (t.drop 3).head? with | some c => isWordChar c | none => false)) ||
    hasCodeBlock rest

/-- The `STRONG_SIGNALS` pattern array applied to `t`, one Bool per
pattern, in source order. -/
def strongMatches (t : List Char) : List Bool :=
  [containsCI t ("good to know".data),
   containsCI t ("warning:".data),
   containsCI t ("note:".data),
   containsCI t ("important:".data),
   existsBoundedCI none t ("don\x27t".data),
   existsBoundedCI none t ("avoid".data),
   containsCI t ("instead of".data),
   hasPreferOver t,
   containsCI t ("common mistake".data),
   hasErrorWhen t]

/-- Number of strong signal patterns matching (`strongSignals.length`). -/
def strongCount (t : List Char) : Nat := (strongMatches t).count true

/-- The `MEDIUM_SIGNALS` pattern array applied to `t`. -/
def mediumMatches (t : List Char) : List Bool :=
  [hasCodeBlock t,
   containsCI t ("for example".data),
   containsCI t ("you can".data),
   containsCI t ("you should".data),
   containsCI t ("make sure".data),
   containsCI t ("be careful".data)]

/-- Number of medium signal patterns matching (`mediumSignals.length`). -/
def mediumCount (t : List Char) : Nat := (mediumMatches t).count true

/-- The `SKIP_PATTERNS` titles: `/^version history$/i` etc. are anchored
full-string case-insensitive matches. -/
def skipTitle (title : List Char) : Bool :=
  lowerStr title = "version history".data ||
  lowerStr title = "installation".data ||
  lowerStr title = "setup".data

/-- `/^\s*\|.*\|\s*$/.test(l)`: after stripping whitespace at both ends the
line starts and ends with a bar and the part between the bars contains no
line terminator (`.` crosses no newline). -/
def isTableLine (l : List Char) : Bool :=
  let t := jsTrim l
  2 ≤ t.length && t.head? = some '|' && t.getLast? = some '|' &&
  ((t.drop 1).dropLast.all fun c => !isLineTerm c)

/-- `content.split("\n").filter(l => l.trim())`. -/
def nonBlankLines (content : List Char) : List (List Char) :=
  (content.splitOn '\n').filter fun l => !(jsTrim l).isEmpty

/-- The "mostly table" test: more than 3 non-blank lines of which more than
70% are table rows.  The floating comparison `tableLines.length /
lines.length > 0.7` is modelled as the exact rational comparison
`10 * tableLines.length > 7 * lines.length` (both counts are far below the
range where IEEE double rounding could separate the two). -/
def mostlyTable (content : List Char) : Bool :=
  let lines := nonBlankLines content
  decide (3 < lines.length) && decide (lines.length * 7 < (lines.filter isTableLine).length * 10)

/-- `shouldExtract(section)`, returning the `extract` flag and the reason
string. -/
def shouldExtract (s : Section) : Bool × List Char :=
  if skipTitle s.title then (false, "skip pattern".data)
  else
    if mostlyTable s.content then
      (false, "mostly table".data)
    else if 0 < strongCount s.content then (true, "strong signal".data)
    else if 2 ≤ mediumCount s.content then (true, "multiple medium".data)
    else if mediumCount s.content = 1 ∧ 300 < s.content.length then
      (true, "medium + length".data)
    else if s.content.length < 100 then (false, "too short".data)
    else (false, "no signals".data)

/-! ### JSON values and `JSON.parse`

`JSON.parse` is the platform primitive both response parsers rely on; it is
modelled here by a recursive-descent parser over the JSON grammar.  Numbers
are kept as their lexemes (the pipeline never computes with them, only
tests truthiness); `\uXXXX` escapes are mapped through `Char.ofNat`
(surrogate halves, which cannot occur in the inputs of interest, fall back
to the null character). -/

inductive Json where
  | null
  | bool (b : Bool)
  | num (lexeme : List Char)
  | str (s : List Char)
  | arr (elems : List Json)
  | obj (fields : List (List Char × Json))

/-- JSON's whitespace (strictly smaller than JavaScript's `\s`). -/
def isJsonWs (c : Char) : Bool := c = ' ' || c = '\t' || c = '\n' || c = '\r'

def skipWs (t : List Char) : List Char := t.dropWhile isJsonWs

def hexVal (c : Char) : Option Nat :=
  if '0' ≤ c ∧ c ≤ '9' then some (c.toNat - 48)
  else if 'a' ≤ c ∧ c ≤ 'f' then some (c.toNat - 87)
  else if 'A' ≤ c ∧ c ≤ 'F' then some (c.toNat - 55)
  else none

/-- Body of a JSON string after the opening quote: returns the decoded
content and the input after the closing quote.  Unescaped control
characters are rejected, as `JSON.parse` does. -/
def parseStringBody : List Char → Option (List Char × List Char)
  | [] => none
  | '"' :: rest => some ([], rest)
  | '\\' :: rest =>
    match rest with
    | 'u' :: h1 :: h2 :: h3 :: h4 :: rest2 =>
      match hexVal h1, hexVal h2, hexVal h3, hexVal h4 with
      | some a, some b, some c, some d =>
        let n := ((a * 16 + b) * 16 + c) * 16 + d
        (parseStringBody rest2).map fun p => (Char.ofNat n :: p.1, p.2)
      | _, _, _, _ => none
    | e :: rest2 =>
      let esc : Option Char :=
        if e = '"' then some '"'
        else if e = '\\' then some '\\'
        else if e = '/' then some '/'
        else if e = 'b' then some '\x08'
        else if e = 'f' then some '\x0c'
        else if e = 'n' then some '\n'
        else if e = 'r' then some '\r'
        else if e = 't' then some '\t'
        else none
      match esc with
      | some ch => (parseStringBody rest2).map fun p => (ch :: p.1, p.2)
      | none => none
    | [] => none
  | c :: rest =>
    if c.toNat < 32 then none
    else (parseStringBody rest).map fun p => (c :: p.1, p.2)

/-- Lexeme of a JSON number at the head of `t`.  A valid-number prefix is
returned with the rest of the input; contexts where JSON would reject the
remainder (e.g. `1.x`) fail at the caller because the leftover input can
never continue a value. -/
def parseNumberLex (t : List Char) : Option (List Char × List Char) :=
  let sp : List Char × List Char := match t with
    | '-' :: r => (['-'], r)
    | _ => ([], t)
  match sp.2 with
  | [] => none
  | c :: r =>
    if !c.isDigit then none
    else
      let ip : List Char × List Char :=
        if c = '0' then (['0'], r)
        else (c :: r.takeWhile Char.isDigit, r.dropWhile Char.isDigit)
      let fp : List Char × List Char := match ip.2 with
        | '.' :: r2 =>
          if (r2.takeWhile Char.isDigit).isEmpty then ([], ip.2)
          else ('.' :: r2.takeWhile Char.isDigit, r2.dropWhile Char.isDigit)
        | _ => ([], ip.2)
      let ep : List Char × List Char := match fp.2 with
        | e :: r2 =>
          if e = 'e' ∨ e = 'E' then
            let sg : List Char × List Char := match r2 with
              | s :: r4 => if s = '+' ∨ s = '-' then ([s], r4) else ([], r2)
              | [] => ([], r2)
            if (sg.2.takeWhile Char.isDigit).isEmpty then ([], fp.2)
            else (e :: (sg.1 ++ sg.2.takeWhile Char.isDigit), sg.2.dropWhile Char.isDigit)
          else ([], fp.2)
        | [] => ([], fp.2)
      some (sp.1 ++ ip.1 ++ fp.1 ++ ep.1, ep.2)

mutual

/-- A JSON value at the head of the input (after leading whitespace),
returning the rest of the input.  `fuel` bounds the recursion depth and is
decremented on every nested construct; `input.length + 1` always
suffices. -/
def parseValue : Nat → List Char → Option (Json × List Char)
  | 0, _ => none
  | fuel + 1, t0 =>
    let t := skipWs t0
    match t with
    | '"' :: r => (parseStringBody r).map fun p => (Json.str p.1, p.2)
    | '\x7b' :: r =>
      match skipWs r with
      | '\x7d' :: r3 => some (Json.obj [], r3)
      | r2 => parseMembers fuel r2 []
    | '[' :: r =>
      match skipWs r with
      | ']' :: r3 => some (Json.arr [], r3)
      | r2 => parseElems fuel r2 []
    | _ =>
      if "true".data.isPrefixOf t then some (Json.bool true, t.drop 4)
      else if "false".data.isPrefixOf t then some (Json.bool false, t.drop 5)
      else if "null".data.isPrefixOf t then some (Json.null, t.drop 4)
      else (parseNumberLex t).map fun p => (Json.num p.1, p.2)

/-- Members of a JSON object, entered at a key position. -/
def parseMembers : Nat → List Char → List (List Char × Json) → Option (Json × List Char)
  | 0, _, _ => none
  | fuel + 1, t, acc =>
    match skipWs t with
    | '"' :: r =>
      match parseStringBody r with
      | none => none
      | some (key, r2) =>
        match skipWs r2 with
        | ':' :: r3 =>
          match parseValue fuel r3 with
          | none => none
          | some (v, r4) =>
            match skipWs r4 with
            | ',' :: r5 => parseMembers fuel r5 (acc ++ [(key, v)])
            | '\x7d' :: r5 => some (Json.obj (acc ++ [(key, v)]), r5)
            | _ => none
        | _ => none
    | _ => none

/-- Elements of a JSON array, entered at a value position. -/
def parseElems : Nat → List Char → List Json → Option (Json × List Char)
  | 0, _, _ => none
  | fuel + 1, t, acc =>
    match parseValue fuel t with
    | none => none
    | some (v, r) =>
      match skipWs r with
      | ',' :: r2 => parseElems fuel r2 (acc ++ [v])
      | ']' :: r2 => some (Json.arr (acc ++ [v]), r2)
      | _ => none

end

/-- `JSON.parse(t)`: one value, with nothing but whitespace around it. -/
def jsonParse (t : List Char) : Option Json :=
  match parseValue (t.length + 1) t with
  | some (v, rest) => if (skipWs rest).isEmpty then some v else none
  | none => none

/-- Property access `obj[key]` on a parsed JSON value; with duplicate keys
`JSON.parse` keeps the last occurrence. -/
def jGet : Json → List Char → Option Json
  | Json.obj fields, key => (fields.reverse).lookup key
  | _, _ => none

/-- JavaScript truthiness of a parsed JSON value (`!v`): `null`, `false`,
numeric zero and the empty string are falsy. -/
def jsonTruthy : Json → Bool
  | Json.null => false
  | Json.bool b => b
  | Json.num lex =>
    !((lex.takeWhile fun c => c ≠ 'e' ∧ c ≠ 'E').all fun c => !('1' ≤ c ∧ c ≤ '9'))
  | Json.str s => !s.isEmpty
  | Json.arr _ => true
  | Json.obj _ => true

/-! ### Response parser, single-record mode (`extractMemory`) -/

/-- Relative index of the first occurrence of three backticks in `u`. -/
def fenceIdxGo : List Char → Option Nat
  | [] => none
  | t@(_ :: rest) =>
    if fenceStr.isPrefixOf t then some 0 else (fenceIdxGo rest).map (· + 1)

/-- Index of the first fence at or after position `p`. -/
def fenceIdxFrom (t : List Char) (p : Nat) : Option Nat :=
  (fenceIdxGo (t.drop p)).map (· + p)

/-- Leftmost position where `/` + "```" + `(?:json)?\s*([\s\S]*?)` + "```" + `/`
can match: the first fence that has another fence at distance ≥ 3. -/
def fenceOpenGo : List Char → Option Nat
  | [] => none
  | t@(_ :: rest) =>
    if fenceStr.isPrefixOf t ∧ (fenceIdxGo (t.drop 3)).isSome then some 0
    else (fenceOpenGo rest).map (· + 1)

/-- The captured group of `text.match(/` + "```" + `(?:json)?\s*([\s\S]*?)` +
"```" + `/)`: from the leftmost viable opening fence, greedily skip an
optional `json` tag and a whitespace run, then take everything up to the
next fence (the lazy group's minimal end). -/
def fenceMatch (t : List Char) : Option (List Char) :=
  match fenceOpenGo t with
  | none => none
  | some p =>
    let a1 := p + 3
    let a2 := a1 + (if "json".data.isPrefixOf (t.drop a1) then 4 else 0)
    let a3 := a2 + ((t.drop a2).takeWhile isJsWs).length
    match fenceIdxFrom t a3 with
    | none => none
    | some q => some (sliceN t a3 q)

/-- `jsonStr.match(/\x7b[\s\S]*\x7d/)`: leftmost start (a `\x7b`), greedy
end (the last `\x7d` of the input, provided it comes later). -/
def objMatchFrom : List Char → Option (List Char)
  | [] => none
  | t@(c :: rest) =>
    if c = '\x7b' then
      match lastIdxOf t '\x7d' with
      | some j => if 1 ≤ j then some (t.take (j + 1)) else objMatchFrom rest
      | none => objMatchFrom rest
    else objMatchFrom rest

/-- One extracted record of the single-record pipeline (`Memory` of
extractor.ts); `trigger`/`rule` keep the parsed JSON values, `example` is
`none` when the key is absent (`exampleSnippet` models the `example`
field, which cannot be used as a Lean identifier). -/
structure ExtractedRecord where
  trigger : Json
  rule : Json
  source : List Char
  sectionTitle : List Char
  exampleSnippet : Option Json

/-- The response handling of `extractMemory(section, docPath)`: `stdout` is
the text returned by the inference service (already captured; the
subprocess call itself is outside the model).  Trim, recognise `SKIP`,
strip a fenced wrapper, extract the object span, `JSON.parse` it, and
require truthy `trigger` and `rule`. -/
def extractMemory (docPath sectionTitle stdout : List Char) : Option ExtractedRecord :=
  let text := jsTrim stdout
  if text = "SKIP".data ∨ lowerStr text = "skip".data then none
  else
    let jsonStr := match fenceMatch text with
      | some g => jsTrim g
      | none => text
    match objMatchFrom jsonStr with
    | none => none
    | some objStr =>
      match jsonParse objStr with
      | none => none
      | some parsed =>
        match jGet parsed "trigger".data, jGet parsed "rule".data with
        | some tv, some rv =>
          if jsonTruthy tv ∧ jsonTruthy rv then
            some ⟨tv, rv, docPath, sectionTitle, jGet parsed "example".data⟩
          else none
        | _, _ => none

/-- Smallest `k` below the bound such that `u.take k` parses as a JSON
object. -/
def firstObjFrom (u : List Char) : Nat → Option (List Char)
  | 0 => none
  | k + 1 =>
    match firstObjFrom u k with
    | some o => some o
    | none =>
      match jsonParse (u.take k) with
      | some (Json.obj _) => some (u.take k)
      | _ => none

/-- Spec model: "locates the first top-level JSON object in the remaining
text (balanced-brace extraction)" — the shortest substring starting at the
first `\x7b` that is a complete JSON object. -/
def firstBalancedObject (t : List Char) : Option (List Char) :=
  match firstIdxOf t '\x7b' with
  | none => none
  | some i =>
    let u := t.drop i
    firstObjFrom u (u.length + 1)

/-- Spec model: `extractMemory` as §4.5 describes it, with balanced-brace
first-object extraction in place of the greedy regex span. -/
def extractMemorySpec (docPath sectionTitle stdout : List Char) : Option ExtractedRecord :=
  let text := jsTrim stdout
  if text = "SKIP".data ∨ lowerStr text = "skip".data then none
  else
    let jsonStr := match fenceMatch text with
      | some g => jsTrim g
      | none => text
    match firstBalancedObject jsonStr with
    | none => none
    | some objStr =>
      match jsonParse objStr with
      | none => none
      | some parsed =>
        match jGet parsed "trigger".data, jGet parsed "rule".data with
        | some tv, some rv =>
          if jsonTruthy tv ∧ jsonTruthy rv then
            some ⟨tv, rv, docPath, sectionTitle, jGet parsed "example".data⟩
          else none
        | _, _ => none

/-! ### Response parser, JSONL mode, and the extraction loop -/

structure RawMemory where
  text : List Char
  context : List Char
  source : List Char
deriving DecidableEq

/-- `parseMemoriesFromModelOutput(raw, source)`: parse each line
independently, skipping blanks, fences and markdown artifacts; a line must
be a full JSON object with non-empty trimmed string fields `text` and
`context`. -/
def parseMemoriesFromModelOutput (raw source : List Char) : List RawMemory :=
  (raw.splitOn '\n').filterMap fun line =>
    let trimmed := jsTrim line
    if trimmed.isEmpty then none
    else if fenceStr.isPrefixOf trimmed then none
    else if trimmed.head? = some '#' then none
    else if trimmed.head? ≠ some '\x7b' then none
    else
      match jsonParse trimmed with
      | none => none
      | some obj =>
        match jGet obj "text".data, jGet obj "context".data with
        | some (Json.str tx), some (Json.str cx) =>
          if !(jsTrim tx).isEmpty ∧ !(jsTrim cx).isEmpty then
            some ⟨jsTrim tx, jsTrim cx, source⟩
          else none
        | _, _ => none

structure Chunk where
  source : List Char
  chunkIndex : Nat
  totalChunks : Nat
  text : List Char
deriving DecidableEq

/-- Outcome of `run(...)` (lib/proc): `code` is `none` for a spawn/transport
error (`code: null`). -/
structure RunResult where
  code : Option Int
  stdout : List Char
  stderr : List Char
  timedOut : Bool
deriving DecidableEq

/-- `extractFromChunk`: a timeout or a non-zero (or absent) exit code yields
the empty string; otherwise the stdout is passed through. -/
def extractFromChunk (r : RunResult) : List Char :=
  if r.timedOut then []
  else if r.code ≠ some 0 then []
  else r.stdout

/-- The accumulation loop of `extract` in the docs-to-memories CLI: every
chunk's service response is parsed and the raw memories are pushed in chunk
order (the concurrency-batched `Promise.all` loop preserves candidate order
in the accumulated list).  `svc` stands for the external service. -/
def runExtraction (chunks : List Chunk) (svc : Chunk → RunResult) : List RawMemory :=
  (chunks.map fun c => parseMemoriesFromModelOutput (extractFromChunk (svc c)) c.source).flatten

/-! ### Deduplicator / finalizer (`finalizeMemories`) -/

structure Memory where
  id : List Char
  text : List Char
  context : List Char
  source : List Char
deriving DecidableEq

/-- The dedup key `` `${item.text}\n---\n${item.context}` ``. -/
def dedupKey (t c : List Char) : List Char := t ++ "\n---\n".data ++ c

/-- The loop of `finalizeMemories` over a JavaScript `Map` (modelled as an
association list in insertion order).  `gen k` stands for the result of the
`k`-th `randomUUID()` call of the run. -/
def finGo (gen : Nat → List Char) :
    List RawMemory → List (List Char × Memory) → Nat → List (List Char × Memory)
  | [], acc, _ => acc
  | it :: rest, acc, k =>
    let key := dedupKey it.text it.context
    if key ∈ acc.map Prod.fst then finGo gen rest acc k
    else finGo gen rest (acc ++ [(key, ⟨gen k, it.text, it.context, it.source⟩)]) (k + 1)

/-- `finalizeMemories(items)` with the UUID supply made explicit. -/
def finalizeMemories (gen : Nat → List Char) (items : List RawMemory) : List Memory :=
  (finGo gen items [] 0).map Prod.snd

/-! ### Output writers (vector-store backends) -/

/-- A row of `writeLanceDb` (src/docs-to-memories/output): `{...m, vector}`. -/
structure LanceRow where
  id : List Char
  text : List Char
  context : List Char
  source : List Char
  vector : List Int
deriving DecidableEq

/-- The row construction of `writeLanceDb(lancePath, memories)`: the
embedding input is `` `${m.text} ${m.context}` `` for every memory.
`embedFn` stands for the external embedding function. -/
def writeLanceDbRows (embedFn : List Char → List Int) (ms : List Memory) : List LanceRow :=
  ms.map fun m => ⟨m.id, m.text, m.context, m.source, embedFn (m.text ++ ' ' :: m.context)⟩

/-- `Memory` of extractor.ts / to-lancedb.ts (`sectionName` models the
`section` field, which cannot be used as a Lean identifier). -/
structure ExtractorMemory where
  trigger : List Char
  rule : List Char
  source : List Char
  sectionName : List Char
  exampleSnippet : Option (List Char)
deriving DecidableEq

/-- A row of `writeToLanceDB` (to-lancedb.ts): no source column. -/
structure LanceMemory where
  id : List Char
  text : List Char
  context : List Char
  vector : List Int
deriving DecidableEq

/-- The context assembly of `writeToLanceDB`. -/
def buildLanceContext (m : ExtractorMemory) : List Char :=
  m.rule ++
  (match m.exampleSnippet with
   | some e => "\n\nExample:\n".data ++ e
   | none => []) ++
  "\n\n[Source: ".data ++ m.source ++ " - ".data ++ m.sectionName ++ "]".data

/-- The row construction of `writeToLanceDB(memories, outputDir)`: the
embedding input is `m.trigger` (the search text alone). -/
def writeToLanceDBRows (gen : Nat → List Char) (embedFn : List Char → List Int)
    (ms : List ExtractorMemory) : List LanceMemory :=
  (enumFromL 0 ms).map fun p =>
    ⟨gen p.1, p.2.trigger, buildLanceContext p.2, embedFn p.2.trigger⟩

/-! ### Extraction worker pool (`parallelMap`)

`parallelMap`'s workers run on the JavaScript event loop: the window from
the `while` test through `nextIndex++` contains no `await`, so a claim is a
single atomic event; the `await fn(...)` suspension and the subsequent
store into `results[index]` form the second event.  A schedule is the
sequence of workers the event loop happens to resume. -/

inductive WStatus where
  | ready
  | claimed (i : Nat)
  | done
deriving DecidableEq

structure PoolState (β : Type) where
  cursor : Nat
  workers : List WStatus
  results : List (Option β)
deriving DecidableEq

/-- One event of worker `w`: a ready worker tests the cursor and either
claims the next index (read-and-increment) or finishes; a worker holding a
claim stores its result at the claimed index and loops back. `f i` stands
for the value of `await fn(items[i], i)`. -/
def poolStep (n : Nat) (f : Nat → β) (s : PoolState β) (w : Nat) : PoolState β :=
  match s.workers[w]? with
  | some WStatus.ready =>
    if s.cursor < n then
      { s with cursor := s.cursor + 1, workers := s.workers.set w (WStatus.claimed s.cursor) }
    else { s with workers := s.workers.set w WStatus.done }
  | some (WStatus.claimed i) =>
    { s with workers := s.workers.set w WStatus.ready, results := s.results.set i (some (f i)) }
  | _ => s

/-- Initial state: `Math.min(concurrency, items.length)` ready workers and a
result slot per candidate. -/
def poolInit (β : Type) (conc n : Nat) : PoolState β :=
  ⟨0, List.replicate (min conc n) WStatus.ready, List.replicate n none⟩

/-- Run the pool under a schedule. -/
def poolRun (n : Nat) (f : Nat → β) : PoolState β → List Nat → PoolState β
  | s, [] => s
  | s, w :: ws => poolRun n f (poolStep n f s w) ws

/-- `parallelMap(items, fn, concurrency)` under a given event-loop
schedule; `n` is `items.length` and `f i` the (pure) result of
`fn(items[i], i)`. -/
def parallelMapRun (conc n : Nat) (f : Nat → β) (sched : List Nat) : PoolState β :=
  poolRun n f (poolInit β conc n) sched

/-- All workers have observed the exhausted cursor and returned. -/
def allDone (s : PoolState β) : Prop := ∀ st ∈ s.workers, st = WStatus.done

instance (s : PoolState β) : Decidable (allDone s) :=
  inferInstanceAs (Decidable (∀ st ∈ s.workers, st = WStatus.done))

/-! ## Helper lemmas -/

theorem enumFromL_map_snd_comp (h : α → γ) :
    ∀ (l : List α) (n : Nat), (enumFromL n l).map (fun p => h p.2) = l.map h := by
  intro l
  induction l with
  | nil => intro n; rfl
  | cons a as ih => intro n; simp [enumFromL, ih]

/-! ## Claims -/

/-- C8: a Section that passes the skip-title and mostly-table rules and
whose content matches no strong and no medium signal pattern is rejected
with reason "too short" at content length 99 and with reason "no signals"
at content length 101 — the 100-character boundary is exclusive on the
short side. -/
theorem C8_length_boundary (lvl a b : Nat) (title content : List Char)
    (h1 : skipTitle title = false) (h2 : mostlyTable content = false)
    (h3 : strongCount content = 0) (h4 : mediumCount content = 0) :
    (content.length = 99 →
      shouldExtract ⟨lvl, title, a, b, content⟩ = (false, "too short".data)) ∧
    (content.length = 101 →
      shouldExtract ⟨lvl, title, a, b, content⟩ = (false, "no signals".data)) := by
  unfold shouldExtract
  simp only [h1, h2, h3, h4]
  constructor <;> intro h <;> simp [h]

/-- Witness for C8 at two concrete sections (99 and 101 copies of `z`). -/
theorem C8_length_boundary_witness :
    shouldExtract ⟨2, "T".data, 0, 0, List.replicate 99 'z'⟩ =
      (false, "too short".data) ∧
    shouldExtract ⟨2, "T".data, 0, 0, List.replicate 101 'z'⟩ =
      (false, "no signals".data) :=
  ⟨(C8_length_boundary 2 0 0 "T".data (List.replicate 99 'z')
      (by decide) (by decide) (by decide) (by decide)).1 (by decide),
   (C8_length_boundary 2 0 0 "T".data (List.replicate 101 'z')
      (by decide) (by decide) (by decide) (by decide)).2 (by decide)⟩

/-- C9: a candidate whose service call fails (timeout, non-zero or absent
exit code) contributes no records, and the extraction loop's result is the
in-order concatenation of per-chunk contributions in which every failing
call contributes the empty list — a failure never disturbs the other
candidates or aborts the run (the loop is total). -/
theorem C9_per_call_failure_recovered (chunks : List Chunk) (svc : Chunk → RunResult)
    (r : RunResult) (src : List Char)
    (h : r.timedOut = true ∨ r.code ≠ some 0) :
    parseMemoriesFromModelOutput (extractFromChunk r) src = [] ∧
    runExtraction chunks svc =
      (chunks.map fun c =>
        if (svc c).timedOut = true ∨ (svc c).code ≠ some 0 then []
        else parseMemoriesFromModelOutput (svc c).stdout c.source).flatten := by
  have hfail : ∀ r' : RunResult, r'.timedOut = true ∨ r'.code ≠ some 0 →
      extractFromChunk r' = [] := by
    intro r' h'
    unfold extractFromChunk
    rcases h' with h' | h'
    · simp [h']
    · by_cases ht : r'.timedOut <;> simp [ht, h']
  constructor
  · rw [hfail r h]
    rfl
  · unfold runExtraction
    congr 1
    apply List.map_congr_left
    intro c _
    by_cases hc : (svc c).timedOut = true ∨ (svc c).code ≠ some 0
    · rw [hfail (svc c) hc, if_pos hc]
      rfl
    · push_neg at hc
      rw [if_neg (by push_neg; exact hc)]
      unfold extractFromChunk
      simp [hc.1, hc.2]

/-- Witness for C9: a non-zero exit code drops a response that would have
parsed into a record. -/
theorem C9_per_call_failure_recovered_witness :
    parseMemoriesFromModelOutput
      (extractFromChunk
        ⟨some 1, "\x7b\"text\":\"t\",\"context\":\"c\"\x7d".data, [], false⟩)
      "s".data = [] :=
  (C9_per_call_failure_recovered [] (fun _ => ⟨some 0, [], [], false⟩)
      ⟨some 1, "\x7b\"text\":\"t\",\"context\":\"c\"\x7d".data, [], false⟩
      "s".data (Or.inr (by decide))).1

/-- C4 (corrected): both designated embedding texts exist in the source,
but each vector-store writer hard-codes its own: `writeLanceDb` (the
pipeline's backend) always embeds `text + " " + context`, and
`writeToLanceDB` (the converter's backend) always embeds `text` alone;
neither function takes anything that selects the other variant. -/
theorem C4_embed_text_per_writer (embedFn : List Char → List Int)
    (gen : Nat → List Char) (ms : List Memory) (es : List ExtractorMemory) :
    (writeLanceDbRows embedFn ms).map LanceRow.vector =
      ms.map (fun m => embedFn (m.text ++ ' ' :: m.context)) ∧
    (writeToLanceDBRows gen embedFn es).map LanceMemory.vector =
      es.map fun m => embedFn m.trigger := by
  constructor
  · unfold writeLanceDbRows
    rw [List.map_map]
    rfl
  · unfold writeToLanceDBRows
    rw [List.map_map]
    exact enumFromL_map_snd_comp (fun m => embedFn m.trigger) es 0

/-- Counterexample for C4 as stated: at a concrete memory the pipeline's
vector-store writer embeds `"t c"` (`text + " " + context`, length 3) and
cannot produce the `text`-alone variant (length 1) — the designated text is
not selected by any configuration of the call; the `text`-alone variant
lives only in the other writer. -/
theorem C4_counterexample :
    (writeLanceDbRows (fun s => [(s.length : Int)])
        [⟨"i".data, "t".data, "c".data, "s".data⟩]).map LanceRow.vector = [[3]] ∧
    [(( "t".data : List Char).length : Int)] = [1] ∧
    ([[3]] : List (List Int)) ≠ [[1]] ∧
    (writeToLanceDBRows (fun _ => "u".data) (fun s => [(s.length : Int)])
        [⟨"t".data, "r".data, "s".data, "n".data, none⟩]).map LanceMemory.vector =
      [[1]] := by
  refine ⟨rfl, rfl, by decide, rfl⟩

/-- Counterexample for C3 as stated: two records whose whitespace-trimmed
text/context concatenations coincide (under either reading of the claimed
key) do not collapse — the code's key keeps the untrimmed fields separated
by `"\n---\n"`, so the run yields two memories where the claim requires
one. -/
theorem C3_counterexample :
    jsTrim ("a".data ++ "b ".data) = jsTrim ("a".data ++ "b".data) ∧
    jsTrim "a".data ++ jsTrim "b ".data = jsTrim "a".data ++ jsTrim "b".data ∧
    (finalizeMemories (fun n => List.replicate n 'x')
        [⟨"a".data, "b".data, "s1".data⟩, ⟨"a".data, "b ".data, "s2".data⟩]).length
      = 2 := by
  refine ⟨by decide, by decide, rfl⟩

/-! ### Dedup properties (C3, C7) -/

/-- Key of a raw record, as computed by the dedup loop. -/
def rawKey (it : RawMemory) : List Char := dedupKey it.text it.context

/-- Memory built from a raw record with the `k`-th fresh identifier. -/
def mkMem (gen : Nat → List Char) (k : Nat) (it : RawMemory) : Memory :=
  ⟨gen k, it.text, it.context, it.source⟩

/-- Accumulator-free reformulation of the dedup loop used in the proofs:
`seen` is the set of keys already in the map, `k` the number of ids drawn
so far. -/
def dedupSpec (gen : Nat → List Char) :
    List (List Char) → Nat → List RawMemory → List Memory
  | _, _, [] => []
  | seen, k, it :: rest =>
    if rawKey it ∈ seen then dedupSpec gen seen k rest
    else mkMem gen k it :: dedupSpec gen (rawKey it :: seen) (k + 1) rest

/-- First-occurrence filter on raw records, by key. -/
def firstOccs : List RawMemory → List (List Char) → List RawMemory
  | [], _ => []
  | it :: rest, seen =>
    if rawKey it ∈ seen then firstOccs rest seen
    else it :: firstOccs rest (rawKey it :: seen)

theorem dedupSpec_seen_congr (gen : Nat → List Char) :
    ∀ (items : List RawMemory) (s1 s2 : List (List Char)) (k : Nat),
      (∀ x, x ∈ s1 ↔ x ∈ s2) → dedupSpec gen s1 k items = dedupSpec gen s2 k items := by
  intro items
  induction items with
  | nil => intros; rfl
  | cons it rest ih =>
    intro s1 s2 k hs
    unfold dedupSpec
    by_cases hm : rawKey it ∈ s1
    · rw [if_pos hm, if_pos ((hs _).1 hm), ih _ _ _ hs]
    · rw [if_neg hm, if_neg (fun h => hm ((hs _).2 h))]
      congr 1
      refine ih _ _ _ fun x => ?_
      simp [List.mem_cons, hs x]

theorem finGo_eq (gen : Nat → List Char) :
    ∀ (items : List RawMemory) (acc : List (List Char × Memory)) (k : Nat),
      (finGo gen items acc k).map Prod.snd =
        acc.map Prod.snd ++ dedupSpec gen (acc.map Prod.fst) k items := by
  intro items
  induction items with
  | nil => intro acc k; simp [finGo, dedupSpec]
  | cons it rest ih =>
    intro acc k
    simp only [finGo]
    by_cases hm : dedupKey it.text it.context ∈ acc.map Prod.fst
    · rw [if_pos hm, ih, dedupSpec, if_pos (show rawKey it ∈ _ from hm)]
    · rw [if_neg hm, ih, dedupSpec, if_neg (show rawKey it ∉ _ from hm)]
      simp only [List.map_append, List.map_cons, List.map_nil]
      rw [List.append_assoc]
      congr 1
      simp only [List.singleton_append]
      congr 1
      refine dedupSpec_seen_congr gen rest _ _ (k + 1) fun x => ?_
      simp only [List.mem_append, List.mem_cons, List.mem_singleton, rawKey,
        List.not_mem_nil, or_false]
      tauto

theorem dedupSpec_eq_firstOccs (gen : Nat → List Char) :
    ∀ (items : List RawMemory) (seen : List (List Char)) (k : Nat),
      dedupSpec gen seen k items =
        (enumFromL k (firstOccs items seen)).map fun p => mkMem gen p.1 p.2 := by
  intro items
  induction items with
  | nil => intros; rfl
  | cons it rest ih =>
    intro seen k
    unfold dedupSpec firstOccs
    by_cases hm : rawKey it ∈ seen
    · rw [if_pos hm, if_pos hm, ih]
    · rw [if_neg hm, if_neg hm]
      simp [enumFromL, ih]

/-- The dedup loop, first-occurrence form. -/
theorem finalizeMemories_eq (gen : Nat → List Char) (items : List RawMemory) :
    finalizeMemories gen items =
      (enumFromL 0 (firstOccs items [])).map fun p => mkMem gen p.1 p.2 := by
  unfold finalizeMemories
  rw [finGo_eq]
  simp [dedupSpec_eq_firstOccs]

theorem firstOccs_keys :
    ∀ (items : List RawMemory) (seen : List (List Char)),
      ((firstOccs items seen).map rawKey).Nodup ∧
        ∀ x ∈ (firstOccs items seen).map rawKey, x ∉ seen := by
  intro items
  induction items with
  | nil => intro seen; simp [firstOccs]
  | cons it rest ih =>
    intro seen
    unfold firstOccs
    by_cases hm : rawKey it ∈ seen
    · simpa [hm] using ih seen
    · rw [if_neg hm]
      obtain ⟨h1, h2⟩ := ih (rawKey it :: seen)
      simp only [List.map_cons, List.nodup_cons]
      refine ⟨⟨fun hmem => (h2 _ hmem) (List.mem_cons_self _ _), h1⟩, ?_⟩
      intro x hx
      rcases List.mem_cons.1 hx with hx | hx
      · exact hx ▸ hm
      · intro hxs
        exact (h2 x hx) (List.mem_cons_of_mem _ hxs)

theorem enumFromL_map_fst :
    ∀ (l : List α) (n : Nat), (enumFromL n l).map Prod.fst = List.range' n l.length := by
  intro l
  induction l with
  | nil => intro n; rfl
  | cons a as ih => intro n; simp [enumFromL, ih, List.range'_succ]

theorem dedupSpec_all_seen (gen : Nat → List Char) :
    ∀ (ys : List RawMemory) (seen : List (List Char)) (k : Nat),
      (∀ y ∈ ys, rawKey y ∈ seen) → dedupSpec gen seen k ys = [] := by
  intro ys
  induction ys with
  | nil => intros; rfl
  | cons y rest ih =>
    intro seen k h
    unfold dedupSpec
    rw [if_pos (h y (List.mem_cons_self _ _))]
    exact ih seen k fun y' hy' => h y' (List.mem_cons_of_mem _ hy')

theorem dedupSpec_append_dups (gen : Nat → List Char) :
    ∀ (xs ys : List RawMemory) (seen : List (List Char)) (k : Nat),
      (∀ y ∈ ys, rawKey y ∈ seen ∨ rawKey y ∈ xs.map rawKey) →
      dedupSpec gen seen k (xs ++ ys) = dedupSpec gen seen k xs := by
  intro xs
  induction xs with
  | nil =>
    intro ys seen k h
    simp only [List.nil_append]
    exact dedupSpec_all_seen gen ys seen k fun y hy => by
      rcases h y hy with h' | h'
      · exact h'
      · simp at h'
  | cons x xs ih =>
    intro ys seen k h
    simp only [List.cons_append]
    unfold dedupSpec
    by_cases hm : rawKey x ∈ seen
    · rw [if_pos hm, if_pos hm]
      refine ih ys seen k fun y hy => ?_
      rcases h y hy with h' | h'
      · exact Or.inl h'
      · rw [List.map_cons] at h'
        rcases List.mem_cons.1 h' with h'' | h''
        · exact Or.inl (h'' ▸ hm)
        · exact Or.inr h''
    · rw [if_neg hm, if_neg hm]
      congr 1
      refine ih ys (rawKey x :: seen) (k + 1) fun y hy => ?_
      rcases h y hy with h' | h'
      · exact Or.inl (List.mem_cons_of_mem _ h')
      · rw [List.map_cons] at h'
        rcases List.mem_cons.1 h' with h'' | h''
        · exact Or.inl (h'' ▸ List.mem_cons_self _ _)
        · exact Or.inr h''

theorem firstOccs_of_nodup :
    ∀ (xs : List RawMemory) (seen : List (List Char)),
      (xs.map rawKey).Nodup → (∀ x ∈ xs, rawKey x ∉ seen) → firstOccs xs seen = xs := by
  intro xs
  induction xs with
  | nil => intros; rfl
  | cons x rest ih =>
    intro seen hnd hns
    unfold firstOccs
    rw [if_neg (hns x (List.mem_cons_self _ _))]
    congr 1
    simp only [List.map_cons, List.nodup_cons] at hnd
    refine ih _ hnd.2 fun y hy => ?_
    intro hmem
    rcases List.mem_cons.1 hmem with h' | h'
    · exact hnd.1 (h' ▸ List.mem_map_of_mem rawKey hy)
    · exact hns y (List.mem_cons_of_mem _ hy) h'

/-- C3 (corrected): the dedup key is the exact, *untrimmed*
`text + "\n---\n" + context`; records with identical key collapse into one
memory that keeps every field of the first-encountered record, identifiers
are drawn in insertion order from the fresh supply, the produced keys are
pairwise distinct, and an injective supply makes the ids unique within the
run. -/
theorem C3_dedup_key_first_occurrence (gen : Nat → List Char) (items : List RawMemory) :
    finalizeMemories gen items =
      (enumFromL 0 (firstOccs items [])).map (fun p => mkMem gen p.1 p.2) ∧
    ((finalizeMemories gen items).map fun m => dedupKey m.text m.context).Nodup ∧
    (Function.Injective gen →
      ((finalizeMemories gen items).map Memory.id).Nodup) := by
  refine ⟨finalizeMemories_eq gen items, ?_, ?_⟩
  · rw [finalizeMemories_eq, List.map_map]
    have hk : ((fun m => dedupKey m.text m.context) ∘ fun p : Nat × RawMemory =>
        mkMem gen p.1 p.2) = fun p : Nat × RawMemory => rawKey p.2 := rfl
    rw [hk]
    have := enumFromL_map_snd_comp (h := rawKey) (firstOccs items []) 0
    rw [this]
    exact (firstOccs_keys items []).1
  · intro hinj
    rw [finalizeMemories_eq, List.map_map]
    have hk : (Memory.id ∘ fun p : Nat × RawMemory => mkMem gen p.1 p.2) =
        gen ∘ Prod.fst := rfl
    rw [hk, ← List.map_map, enumFromL_map_fst]
    exact (List.nodup_range' _ _).map hinj

/-- Witness for C3 (corrected): two records with the same key collapse and
the concrete injective supply yields distinct ids. -/
theorem C3_dedup_key_first_occurrence_witness :
    ((finalizeMemories (fun n => List.replicate n 'x')
        [⟨"a".data, "b".data, "s1".data⟩,
         ⟨"a".data, "b".data, "s2".data⟩]).map Memory.id).Nodup :=
  (C3_dedup_key_first_occurrence (fun n => List.replicate n 'x')
      [⟨"a".data, "b".data, "s1".data⟩, ⟨"a".data, "b".data, "s2".data⟩]).2.2
    (fun a b h => by simpa using congrArg List.length h)

/-- C7: the Deduplicator is idempotent — appending exact duplicates (here:
the whole list again) changes nothing, and re-running it on the records of
its own output reproduces that output.  `randomUUID()` is modelled by the
explicit supply `gen`, the same supply across runs, so "the same Memory
set" is literal list equality. -/
theorem C7_dedup_idempotent (gen : Nat → List Char) (items : List RawMemory) :
    finalizeMemories gen (items ++ items) = finalizeMemories gen items ∧
    finalizeMemories gen
        ((finalizeMemories gen items).map fun m =>
          (⟨m.text, m.context, m.source⟩ : RawMemory)) =
      finalizeMemories gen items := by
  constructor
  · unfold finalizeMemories
    rw [finGo_eq, finGo_eq]
    simp only [List.map_nil, List.nil_append]
    exact dedupSpec_append_dups gen items items [] 0
      fun y hy => Or.inr (List.mem_map_of_mem rawKey hy)
  · have hproj : (finalizeMemories gen items).map
        (fun m => (⟨m.text, m.context, m.source⟩ : RawMemory)) = firstOccs items [] := by
      rw [finalizeMemories_eq, List.map_map]
      have hk : ((fun m : Memory => (⟨m.text, m.context, m.source⟩ : RawMemory)) ∘
          fun p : Nat × RawMemory => mkMem gen p.1 p.2) =
          fun p : Nat × RawMemory => p.2 := rfl
      rw [hk]
      have := enumFromL_map_snd_comp (h := fun it : RawMemory => it) (firstOccs items []) 0
      simpa using this
    rw [hproj, finalizeMemories_eq gen (firstOccs items []), finalizeMemories_eq gen items,
      firstOccs_of_nodup _ _ (firstOccs_keys items []).1
        (fun x _ => List.not_mem_nil _)]

/-! ### Chunker properties (C6, C10) -/

/-- Unfolding of one loop iteration. -/
theorem chunkLoop_succ (input : List Char) (cs ov : Int) (fuel : Nat)
    (start : Int) (acc : List (List Char)) :
    chunkLoop input cs ov (fuel + 1) start acc =
      if start < (input.length : Int) then
        if (input.length : Int) - ov ≤ min (start + cs) (input.length : Int) - ov then
          some (acc ++ [jsSlice input start (min (start + cs) (input.length : Int))])
        else
          chunkLoop input cs ov fuel (min (start + cs) (input.length : Int) - ov)
            (acc ++ [jsSlice input start (min (start + cs) (input.length : Int))])
      else some acc := rfl

/-- The upper slice bound may be clamped to the length without changing the
slice (for a non-negative bound). -/
theorem jsSlice_min_len (s : List Char) (a b : Int) (hb : 0 ≤ b) :
    jsSlice s a (min b (s.length : Int)) = jsSlice s a b := by
  have hseq : jsSliceIdx (s.length : Int) (min b (s.length : Int)) =
      jsSliceIdx (s.length : Int) b := by
    unfold jsSliceIdx
    split_ifs <;> omega
  simp only [jsSlice]
  rw [hseq]

/-- With `overlap ≥ chunkSize` and input longer than `chunkSize` the window
start never advances past 0, so the loop runs forever (no fuel ever
completes it). -/
theorem chunkLoop_diverges (input : List Char) (cs ov : Int) (hcs : 0 < cs)
    (hov : cs ≤ ov) (hlen : cs < (input.length : Int)) :
    ∀ (fuel : Nat) (start : Int) (acc : List (List Char)), start ≤ 0 →
      chunkLoop input cs ov fuel start acc = none := by
  intro fuel
  induction fuel with
  | zero => intros; rfl
  | succ n ih =>
    intro start acc hstart
    rw [chunkLoop_succ]
    have hmin : min (start + cs) (input.length : Int) = start + cs := by omega
    rw [if_pos (by omega), hmin, if_neg (by omega)]
    exact ih _ _ (by omega)

/-- With `0 ≤ overlap < chunkSize` every iteration that continues advances
`start` by at least one, so `input.length + 1` fuel always completes the
loop. -/
theorem chunkLoop_terminates (input : List Char) (cs ov : Int)
    (hcs : 0 < cs) (hov0 : 0 ≤ ov) (hov : ov < cs) :
    ∀ (fuel : Nat) (start : Int) (acc : List (List Char)), 0 ≤ start →
      ((input.length : Int) - start).toNat < fuel →
      (chunkLoop input cs ov fuel start acc).isSome := by
  intro fuel
  induction fuel with
  | zero => intro start acc h1 h2; omega
  | succ n ih =>
    intro start acc h1 h2
    rw [chunkLoop_succ]
    by_cases hs : start < (input.length : Int)
    · rw [if_pos hs]
      by_cases hb : (input.length : Int) - ov ≤ min (start + cs) (input.length : Int) - ov
      · rw [if_pos hb]; rfl
      · rw [if_neg hb]
        have h3 : start + cs < (input.length : Int) := by omega
        have hmin : min (start + cs) (input.length : Int) = start + cs := by omega
        rw [hmin]
        exact ih _ _ (by omega) (by omega)
    · rw [if_neg hs]; rfl

/-- Full characterisation of the loop under `0 ≤ overlap < chunkSize`:
window `k` (counting from the entry value of `start`) is the slice starting
`k * (chunkSize - overlap)` after the entry position, of length `chunkSize`
clamped to the end; when anything remains the produced list is non-empty
and its last window reaches the end of the input. -/
theorem chunkLoop_spec (input : List Char) (cs ov : Int)
    (hcs : 0 < cs) (hov0 : 0 ≤ ov) (hov : ov < cs) :
    ∀ (fuel : Nat) (start : Int) (acc : List (List Char)), 0 ≤ start →
      ((input.length : Int) - start).toNat < fuel →
      ∃ tl, chunkLoop input cs ov fuel start acc = some (acc ++ tl) ∧
        (∀ k, k < tl.length →
          tl.get? k =
            some (jsSlice input (start + k * (cs - ov)) (start + k * (cs - ov) + cs))) ∧
        (start < (input.length : Int) → tl ≠ [] ∧
          (input.length : Int) ≤ start + ((tl.length - 1 : Nat) : Int) * (cs - ov) + cs) ∧
        ((input.length : Int) ≤ start → tl = []) := by
  intro fuel
  induction fuel with
  | zero => intro start acc h1 h2; omega
  | succ n ih =>
    intro start acc h1 h2
    rw [chunkLoop_succ]
    by_cases hs : start < (input.length : Int)
    · rw [if_pos hs]
      have hw : jsSlice input start (min (start + cs) (input.length : Int)) =
          jsSlice input start (start + cs) := jsSlice_min_len input start _ (by omega)
      by_cases hb : (input.length : Int) - ov ≤ min (start + cs) (input.length : Int) - ov
      · rw [if_pos hb, hw]
        refine ⟨[jsSlice input start (start + cs)], rfl, ?_, ?_, ?_⟩
        · intro k hk
          simp only [List.length_singleton] at hk
          have hk0 : k = 0 := by omega
          subst hk0
          simp
        · intro _
          refine ⟨by simp, ?_⟩
          simp only [List.length_singleton]
          push_cast
          omega
        · intro h; exact absurd hs (not_lt.2 h)
      · rw [if_neg hb]
        have h3 : start + cs < (input.length : Int) := by omega
        have hmin : min (start + cs) (input.length : Int) = start + cs := by omega
        rw [hmin]
        obtain ⟨tl, htl, hwin, hlast, hend⟩ :=
          ih (start + cs - ov) (acc ++ [jsSlice input start (start + cs)])
            (by omega) (by omega)
        refine ⟨jsSlice input start (start + cs) :: tl, by simpa using htl, ?_, ?_, ?_⟩
        · intro k hk
          cases k with
          | zero => simp
          | succ k' =>
            have := hwin k' (by simpa using hk)
            simp only [List.get?_cons_succ]
            rw [this]
            congr 2 <;> push_cast <;> ring
        · intro _
          have h4 : start + cs - ov < (input.length : Int) := by omega
          obtain ⟨hne, hle⟩ := hlast h4
          refine ⟨by simp, ?_⟩
          have h5 : 1 ≤ tl.length := List.length_pos.2 hne
          simp only [List.length_cons]
          have h6 : ((tl.length + 1 - 1 : Nat) : Int) = ((tl.length - 1 : Nat) : Int) + 1 := by
            omega
          rw [h6]
          have h7 : (start + cs - ov) + ((tl.length - 1 : Nat) : Int) * (cs - ov) + cs =
              start + (((tl.length - 1 : Nat) : Int) + 1) * (cs - ov) + cs := by ring
          omega
        · intro h; omega
    · rw [if_neg hs]
      refine ⟨[], by simp, ?_, fun h => absurd h hs, fun _ => rfl⟩
      intro k hk
      simp at hk

/-- C10: under `0 ≤ overlap < chunkSize` (with `chunkSize > 0`) the chunk
loop terminates on every input within `input.length + 1` iterations, and
the precondition is necessary: with `overlap ≥ chunkSize`, on any text
longer than `chunkSize` the loop never terminates, whatever the fuel. -/
theorem C10_chunk_termination (cs ov : Int) (input : List Char) (hcs : 0 < cs) :
    (0 ≤ ov → ov < cs → (chunkText input cs ov (input.length + 1)).isSome) ∧
    (cs ≤ ov → cs < (input.length : Int) →
      ∀ fuel, chunkText input cs ov fuel = none) := by
  constructor
  · intro h1 h2
    exact chunkLoop_terminates input cs ov hcs h1 h2 (input.length + 1) 0 [] le_rfl
      (by omega)
  · intro h1 h2 fuel
    exact chunkLoop_diverges input cs ov hcs h1 h2 fuel 0 [] le_rfl

/-- Witness for C10: `chunkSize 2, overlap 1` finishes on a 3-character
input, `overlap 2` never does. -/
theorem C10_chunk_termination_witness :
    (chunkText "abc".data 2 1 4).isSome ∧ chunkText "abc".data 2 2 7 = none :=
  ⟨(C10_chunk_termination 2 1 "abc".data (by decide)).1 (by decide) (by decide),
   (C10_chunk_termination 2 2 "abc".data (by decide)).2 (by decide) (by decide) 7⟩

/-- C6 (corrected): under `0 ≤ overlap < windowSize` the chunker terminates
and produces consecutive windows — window `k` starts at
`k * (windowSize - overlap)` and has length `windowSize` (clamped at the
end, so only the final one can be shorter) — and on non-empty input the
final window reaches the text's end. -/
theorem C6_chunk_windows (input : List Char) (cs ov : Int)
    (hcs : 0 < cs) (hov0 : 0 ≤ ov) (hov : ov < cs) :
    ∃ cl, chunkText input cs ov (input.length + 1) = some cl ∧
      (∀ k, k < cl.length →
        cl.get? k = some (jsSlice input (k * (cs - ov)) (k * (cs - ov) + cs))) ∧
      (input ≠ [] → cl ≠ [] ∧
        (input.length : Int) ≤ ((cl.length - 1 : Nat) : Int) * (cs - ov) + cs) ∧
      (input = [] → cl = []) := by
  obtain ⟨tl, h1, h2, h3, h4⟩ :=
    chunkLoop_spec input cs ov hcs hov0 hov (input.length + 1) 0 [] le_rfl (by omega)
  refine ⟨tl, by simpa [chunkText] using h1, ?_, ?_, ?_⟩
  · intro k hk
    have := h2 k hk
    simpa using this
  · intro hne
    have hpos : (0 : Int) < (input.length : Int) := by
      have : input.length ≠ 0 := fun h => hne (List.length_eq_zero.1 h)
      omega
    have := h3 hpos
    simpa using this
  · intro hemp
    subst hemp
    exact h4 (by simp)

/-- Witness for C6 (corrected). -/
theorem C6_chunk_windows_witness :
    (∃ cl, chunkText "abcd".data 2 1 ("abcd".data.length + 1) = some cl ∧
      (∀ k, k < cl.length →
        cl.get? k = some (jsSlice "abcd".data (k * (2 - 1)) (k * (2 - 1) + 2))) ∧
      ("abcd".data ≠ [] → cl ≠ [] ∧
        (("abcd".data.length : Int)) ≤ ((cl.length - 1 : Nat) : Int) * (2 - 1) + 2) ∧
      ("abcd".data = [] → cl = [])) ∧
    chunkText "abcd".data 2 1 5 = some ["ab".data, "bc".data, "cd".data] :=
  ⟨C6_chunk_windows "abcd".data 2 1 (by decide) (by decide) (by decide), by decide⟩

/-- Counterexample for C6 as stated (quantifying over *every* overlap): with
`windowSize 2, overlap -5` the chunker terminates with windows `"ab"` and
`"hi"` — the input's final character `j` is in no window, so the final
window does not reach the text's end and the input is not covered. -/
theorem C6_counterexample :
    chunkText "abcdefghij".data 2 (-5) 20 = some ["ab".data, "hi".data] ∧
    'j' ∈ "abcdefghij".data ∧ 'j' ∉ "ab".data ∧ 'j' ∉ "hi".data := by
  refine ⟨by decide, by decide, by decide, by decide⟩

/-! ### Structural parser properties (C5) -/

theorem enumFromL_get :
    ∀ (l : List α) (n : Nat) (p : Nat × α), p ∈ enumFromL n l →
      n ≤ p.1 ∧ l.get? (p.1 - n) = some p.2 := by
  intro l
  induction l with
  | nil => intro n p hp; simp [enumFromL] at hp
  | cons a as ih =>
    intro n p hp
    rcases List.mem_cons.1 hp with h | h
    · subst h; simp
    · obtain ⟨h1, h2⟩ := ih (n + 1) p h
      refine ⟨by omega, ?_⟩
      have hidx : p.1 - n = (p.1 - (n + 1)) + 1 := by omega
      rw [hidx]
      simpa using h2

theorem enumFromL_pairwise :
    ∀ (l : List α) (n : Nat), List.Pairwise (fun a b => a.1 < b.1) (enumFromL n l) := by
  intro l
  induction l with
  | nil => intro n; simp [enumFromL]
  | cons a as ih =>
    intro n
    refine List.Pairwise.cons ?_ (ih (n + 1))
    intro p hp
    have := (enumFromL_get as (n + 1) p hp).1
    simp only
    omega

theorem findIdx_le_of_get (p : α → Bool) :
    ∀ (l : List α) (i : Nat) (a : α), l.get? i = some a → p a = true → l.findIdx p ≤ i := by
  intro l
  induction l with
  | nil => intro i a h; simp at h
  | cons x xs ih =>
    intro i a h hp
    cases i with
    | zero =>
      simp only [List.get?_cons_zero, Option.some.injEq] at h
      subst h
      simp [List.findIdx_cons, hp]
    | succ i' =>
      simp only [List.get?_cons_succ] at h
      rw [List.findIdx_cons]
      cases hx : p x
      · simp only [cond_false]
        exact Nat.succ_le_succ (ih i' a h hp)
      · simp

/-- What the parser guarantees about any produced section: its `lineStart`
is a heading line whose match gives the level and (backtick-stripped)
title, and its content is the joined-and-trimmed block of the lines
strictly between `lineStart` and `lineEnd` (inclusive). -/
def GoodSec (lines : List (List Char)) (s : Section) : Prop :=
  ∃ hline raw, lines.get? s.lineStart = some hline ∧
    parseHeaderLine hline = some (s.level, raw) ∧ s.title = stripTicks raw ∧
    s.content = contentOf lines (s.lineStart + 1) (s.lineEnd + 1)

theorem sectionsGo_none (lines : List (List Char)) :
    ∀ (l : List (Nat × List Char)),
      (∀ p ∈ l, parseHeaderLine p.2 = none) →
      sectionsGo lines l none [] = [] := by
  intro l
  induction l with
  | nil => intros; rfl
  | cons p rest ih =>
    intro h
    obtain ⟨i, line⟩ := p
    simp only [sectionsGo, h (i, line) (List.mem_cons_self _ _)]
    exact ih fun p hp => h p (List.mem_cons_of_mem _ hp)

theorem sectionsGo_mem (lines : List (List Char)) :
    ∀ (l : List (Nat × List Char)) (cur : Option (Nat × Nat × List Char))
      (acc : List Section),
      (∀ p ∈ l, lines.get? p.1 = some p.2) →
      List.Pairwise (fun a b => a.1 < b.1) l →
      (∀ st lvl tl, cur = some (st, lvl, tl) →
        (∃ hline, lines.get? st = some hline ∧ parseHeaderLine hline = some (lvl, tl)) ∧
        ∀ p ∈ l, st < p.1) →
      (∀ s ∈ acc, GoodSec lines s) →
      ∀ s ∈ sectionsGo lines l cur acc, GoodSec lines s := by
  intro l
  induction l with
  | nil =>
    intro cur acc _ _ hcur hacc s hs
    cases cur with
    | none => exact hacc s hs
    | some c =>
      obtain ⟨st, lvl, tl⟩ := c
      simp only [sectionsGo] at hs
      rcases List.mem_append.1 hs with hs | hs
      · exact hacc s hs
      · obtain ⟨⟨hline, hget, hparse⟩, -⟩ := hcur st lvl tl rfl
        have hlen : st < lines.length := (List.get?_eq_some.1 hget).1
        rcases List.mem_singleton.1 hs with rfl
        refine ⟨hline, tl, hget, hparse, rfl, ?_⟩
        simp only
        congr 1
        omega
  | cons p rest ih =>
    intro cur acc hcons hpw hcur hacc s hs
    obtain ⟨i, line⟩ := p
    have hconsr : ∀ p ∈ rest, lines.get? p.1 = some p.2 :=
      fun p hp => hcons p (List.mem_cons_of_mem _ hp)
    have hpwr : List.Pairwise (fun a b => a.1 < b.1) rest := hpw.of_cons
    have hlt : ∀ p ∈ rest, i < p.1 := fun p hp => List.rel_of_pairwise_cons hpw hp
    cases hp : parseHeaderLine line with
    | none =>
      simp only [sectionsGo, hp] at hs
      refine ih cur acc hconsr hpwr ?_ hacc s hs
      intro st lvl tl hc
      obtain ⟨h1, h2⟩ := hcur st lvl tl hc
      exact ⟨h1, fun p hp => h2 p (List.mem_cons_of_mem _ hp)⟩
    | some v =>
      obtain ⟨lvl, tl⟩ := v
      have hgeti : lines.get? i = some line := hcons (i, line) (List.mem_cons_self _ _)
      cases cur with
      | none =>
        simp only [sectionsGo, hp] at hs
        refine ih _ acc hconsr hpwr ?_ hacc s hs
        intro st lvl' tl' hc
        simp only [Option.some.injEq, Prod.mk.injEq] at hc
        obtain ⟨rfl, rfl, rfl⟩ := hc
        exact ⟨⟨line, hgeti, hp⟩, hlt⟩
      | some c =>
        obtain ⟨st, l0, t0⟩ := c
        simp only [sectionsGo, hp] at hs
        obtain ⟨⟨hline0, hget0, hparse0⟩, hstlt⟩ := hcur st l0 t0 rfl
        have hsti : st < i := hstlt (i, line) (List.mem_cons_self _ _)
        refine ih _ _ hconsr hpwr ?_ ?_ s hs
        · intro st' lvl' tl' hc
          simp only [Option.some.injEq, Prod.mk.injEq] at hc
          obtain ⟨rfl, rfl, rfl⟩ := hc
          exact ⟨⟨line, hgeti, hp⟩, hlt⟩
        · intro s' hs'
          rcases List.mem_append.1 hs' with hs' | hs'
          · exact hacc s' hs'
          · rcases List.mem_singleton.1 hs' with rfl
            refine ⟨hline0, t0, hget0, hparse0, rfl, ?_⟩
            simp only
            congr 1
            omega

/-- C5: a document with no heading marker yields zero sections (all content
is dropped, there is no implicit whole-document section), and more
generally every produced section sits at a heading line at or after the
first heading, with content drawn only from the lines strictly after its
own heading line — so content before the first heading marker is
represented in no section. -/
theorem C5_no_heading_no_section (c : List Char) :
    ((∀ l ∈ c.splitOn '\n', parseHeaderLine l = none) → parseMarkdownSections c = []) ∧
    (∀ s ∈ parseMarkdownSections c,
      ∃ hline raw, (c.splitOn '\n').get? s.lineStart = some hline ∧
        parseHeaderLine hline = some (s.level, raw) ∧ s.title = stripTicks raw ∧
        (c.splitOn '\n').findIdx (fun l => (parseHeaderLine l).isSome) ≤ s.lineStart ∧
        s.content = contentOf (c.splitOn '\n') (s.lineStart + 1) (s.lineEnd + 1)) := by
  constructor
  · intro h
    unfold parseMarkdownSections
    refine sectionsGo_none _ _ fun p hp => ?_
    exact h p.2 (List.get?_mem (by simpa using (enumFromL_get _ 0 p hp).2))
  · intro s hs
    have hgood : GoodSec (c.splitOn '\n') s := by
      refine sectionsGo_mem (c.splitOn '\n') (enumFromL 0 (c.splitOn '\n')) none []
        (fun p hp => by simpa using (enumFromL_get _ 0 p hp).2)
        (enumFromL_pairwise _ 0)
        (fun st lvl tl hc => by simp at hc)
        (fun s' hs' => by simp at hs')
        s hs
    obtain ⟨hline, raw, hget, hparse, htitle, hcontent⟩ := hgood
    exact ⟨hline, raw, hget, hparse, htitle,
      findIdx_le_of_get _ _ _ _ hget (by simp [hparse]), hcontent⟩

/-- Witness for C5 at concrete documents: a heading-free document yields no
sections, and the one section of `"# T\nbody"` satisfies the guarantees. -/
theorem C5_no_heading_no_section_witness :
    parseMarkdownSections "hello\nworld".data = [] ∧
    (∃ hline raw,
      ("# T\nbody".data.splitOn '\n').get?
          (⟨1, "T".data, 0, 1, "body".data⟩ : Section).lineStart = some hline ∧
      parseHeaderLine hline =
        some ((⟨1, "T".data, 0, 1, "body".data⟩ : Section).level, raw) ∧
      (⟨1, "T".data, 0, 1, "body".data⟩ : Section).title = stripTicks raw ∧
      ("# T\nbody".data.splitOn '\n').findIdx (fun l => (parseHeaderLine l).isSome) ≤
        (⟨1, "T".data, 0, 1, "body".data⟩ : Section).lineStart ∧
      (⟨1, "T".data, 0, 1, "body".data⟩ : Section).content =
        contentOf ("# T\nbody".data.splitOn '\n')
          ((⟨1, "T".data, 0, 1, "body".data⟩ : Section).lineStart + 1)
          ((⟨1, "T".data, 0, 1, "body".data⟩ : Section).lineEnd + 1)) :=
  ⟨(C5_no_heading_no_section "hello\nworld".data).1 (by decide),
   (C5_no_heading_no_section "# T\nbody".data).2 ⟨1, "T".data, 0, 1, "body".data⟩
     (by decide)⟩

/-! ### Worker pool properties (C1) -/

theorem getq_set_self : ∀ (l : List α) (i : Nat) (a : α), i < l.length →
    (l.set i a)[i]? = some a := by
  intro l
  induction l with
  | nil => intro i a h; simp at h
  | cons x xs ih =>
    intro i a h
    cases i with
    | zero => simp
    | succ i' => simpa using ih i' a (by simpa using h)

theorem getq_set_ne : ∀ (l : List α) (i j : Nat) (a : α), i ≠ j →
    (l.set i a)[j]? = l[j]? := by
  intro l
  induction l with
  | nil => intros; rfl
  | cons x xs ih =>
    intro i j a hne
    cases i with
    | zero =>
      cases j with
      | zero => exact absurd rfl hne
      | succ j' => simp
    | succ i' =>
      cases j with
      | zero => simp
      | succ j' => simpa using ih i' j' a (fun h => hne (by omega))

theorem getq_replicate (x : α) : ∀ (m i : Nat),
    (List.replicate m x)[i]? = if i < m then some x else none := by
  intro m
  induction m with
  | zero => intro i; simp
  | succ m' ih =>
    intro i
    cases i with
    | zero => simp [List.replicate]
    | succ i' => simpa [List.replicate] using ih i'

theorem lt_of_getq : ∀ (l : List α) (i : Nat) (a : α), l[i]? = some a → i < l.length := by
  intro l
  induction l with
  | nil => intro i a h; simp at h
  | cons x xs ih =>
    intro i a h
    cases i with
    | zero => simp
    | succ i' => simpa using ih i' a (by simpa using h)

theorem getq_exists_of_lt : ∀ (l : List α) (i : Nat), i < l.length → ∃ a, l[i]? = some a := by
  intro l
  induction l with
  | nil => intro i h; simp at h
  | cons x xs ih =>
    intro i h
    cases i with
    | zero => exact ⟨x, by simp⟩
    | succ i' =>
      obtain ⟨a, ha⟩ := ih i' (by simpa using h)
      exact ⟨a, by simpa using ha⟩

theorem mem_of_getq : ∀ (l : List α) (i : Nat) (a : α), l[i]? = some a → a ∈ l := by
  intro l
  induction l with
  | nil => intro i a h; simp at h
  | cons x xs ih =>
    intro i a h
    cases i with
    | zero => simp only [List.getElem?_cons_zero, Option.some.injEq] at h; exact h ▸ List.mem_cons_self _ _
    | succ i' => exact List.mem_cons_of_mem _ (ih i' a (by simpa using h))

/-- Invariant of the pool, established at initialisation and preserved by
every event: pending claims are pairwise distinct, below the cursor and at
still-unwritten slots; slots at or above the cursor are unwritten; slots
below the cursor with no pending claim hold their worker's stored value;
and a finished worker forces the cursor to be exhausted. -/
def PoolInv (n W : Nat) (f : Nat → β) (s : PoolState β) : Prop :=
  s.workers.length = W ∧
  s.results.length = n ∧
  s.cursor ≤ n ∧
  (∀ w1 w2 i : Nat, s.workers[w1]? = some (WStatus.claimed i) →
    s.workers[w2]? = some (WStatus.claimed i) → w1 = w2) ∧
  (∀ w i : Nat, s.workers[w]? = some (WStatus.claimed i) →
    i < s.cursor ∧ s.results[i]? = some none) ∧
  (∀ i : Nat, s.cursor ≤ i → i < n → s.results[i]? = some none) ∧
  (∀ i : Nat, i < s.cursor → (∀ w : Nat, s.workers[w]? ≠ some (WStatus.claimed i)) →
    s.results[i]? = some (some (f i))) ∧
  (∀ w : Nat, s.workers[w]? = some WStatus.done → s.cursor = n)

theorem poolInv_init (conc n : Nat) (f : Nat → β) :
    PoolInv n (min conc n) f (poolInit β conc n) := by
  refine ⟨by simp [poolInit], by simp [poolInit], Nat.zero_le n, ?_, ?_, ?_, ?_, ?_⟩
  · intro w1 w2 i h1 h2
    simp only [poolInit, getq_replicate] at h1
    split at h1 <;> simp_all
  · intro w i h
    simp only [poolInit, getq_replicate] at h
    split at h <;> simp_all
  · intro i _ hi
    simp only [poolInit, getq_replicate]
    rw [if_pos hi]
  · intro i hi
    simp [poolInit] at hi
  · intro w h
    simp only [poolInit, getq_replicate] at h
    split at h <;> simp_all

theorem poolStep_ready (n : Nat) (f : Nat → β) (s : PoolState β) (w : Nat)
    (h : s.workers[w]? = some WStatus.ready) :
    poolStep n f s w =
      if s.cursor < n then
        { s with cursor := s.cursor + 1,
                 workers := s.workers.set w (WStatus.claimed s.cursor) }
      else { s with workers := s.workers.set w WStatus.done } := by
  unfold poolStep
  rw [h]

theorem poolStep_claimed (n : Nat) (f : Nat → β) (s : PoolState β) (w i : Nat)
    (h : s.workers[w]? = some (WStatus.claimed i)) :
    poolStep n f s w =
      { s with workers := s.workers.set w WStatus.ready,
               results := s.results.set i (some (f i)) } := by
  unfold poolStep
  rw [h]

theorem poolStep_none (n : Nat) (f : Nat → β) (s : PoolState β) (w : Nat)
    (h : s.workers[w]? = none) : poolStep n f s w = s := by
  unfold poolStep
  rw [h]

theorem poolStep_done (n : Nat) (f : Nat → β) (s : PoolState β) (w : Nat)
    (h : s.workers[w]? = some WStatus.done) : poolStep n f s w = s := by
  unfold poolStep
  rw [h]

theorem poolInv_step (n W : Nat) (f : Nat → β) (s : PoolState β) (w : Nat)
    (h : PoolInv n W f s) : PoolInv n W f (poolStep n f s w) := by
  obtain ⟨hWl, hn, hc, hdist, hclaim, habove, hwritten, hdone⟩ := h
  cases hw : s.workers[w]? with
  | none => rw [poolStep_none n f s w hw]
            exact ⟨hWl, hn, hc, hdist, hclaim, habove, hwritten, hdone⟩
  | some st =>
    have hwlt : w < s.workers.length := lt_of_getq _ _ _ hw
    cases st with
    | ready =>
      by_cases hcn : s.cursor < n
      · rw [poolStep_ready n f s w hw, if_pos hcn]
        unfold PoolInv
        dsimp only
        refine ⟨by simpa using hWl, hn, hcn, ?_, ?_, ?_, ?_, ?_⟩
        · intro w1 w2 i h1 h2
          by_cases hw1 : w1 = w <;> by_cases hw2 : w2 = w
          · omega
          · subst hw1
            rw [getq_set_self _ _ _ hwlt] at h1
            rw [getq_set_ne _ _ _ _ (fun h' => hw2 h'.symm)] at h2
            injection h1 with h1
            injection h1 with h1
            exact absurd ((hclaim w2 i h2).1) (by omega)
          · subst hw2
            rw [getq_set_self _ _ _ hwlt] at h2
            rw [getq_set_ne _ _ _ _ (fun h' => hw1 h'.symm)] at h1
            injection h2 with h2
            injection h2 with h2
            exact absurd ((hclaim w1 i h1).1) (by omega)
          · rw [getq_set_ne _ _ _ _ (fun h' => hw1 h'.symm)] at h1
            rw [getq_set_ne _ _ _ _ (fun h' => hw2 h'.symm)] at h2
            exact hdist w1 w2 i h1 h2
        · intro w' i h'
          by_cases hw' : w' = w
          · subst hw'
            rw [getq_set_self _ _ _ hwlt] at h'
            injection h' with h'
            injection h' with h'
            subst h'
            exact ⟨Nat.lt_succ_self _, habove _ le_rfl hcn⟩
          · rw [getq_set_ne _ _ _ _ (fun h'' => hw' h''.symm)] at h'
            obtain ⟨h1, h2⟩ := hclaim w' i h'
            exact ⟨by omega, h2⟩
        · intro i hi hi2
          exact habove i (by omega) hi2
        · intro i hi hnc
          by_cases hic : i = s.cursor
          · subst hic
            exact absurd (getq_set_self _ _ _ hwlt) (hnc w)
          · refine hwritten i (by omega) fun w' => ?_
            by_cases hw' : w' = w
            · subst hw'
              rw [hw]
              simp
            · intro hcl
              exact hnc w' (by rwa [getq_set_ne _ _ _ _ (fun h' => hw' h'.symm)])
        · intro w' h'
          by_cases hw' : w' = w
          · subst hw'
            rw [getq_set_self _ _ _ hwlt] at h'
            simp at h'
          · rw [getq_set_ne _ _ _ _ (fun h'' => hw' h''.symm)] at h'
            exact absurd (hdone w' h') (by omega)
      · rw [poolStep_ready n f s w hw, if_neg hcn]
        unfold PoolInv
        dsimp only
        refine ⟨by simpa using hWl, hn, hc, ?_, ?_, habove, ?_, ?_⟩
        · intro w1 w2 i h1 h2
          by_cases hw1 : w1 = w <;> by_cases hw2 : w2 = w
          · omega
          · subst hw1; rw [getq_set_self _ _ _ hwlt] at h1; simp at h1
          · subst hw2; rw [getq_set_self _ _ _ hwlt] at h2; simp at h2
          · rw [getq_set_ne _ _ _ _ (fun h' => hw1 h'.symm)] at h1
            rw [getq_set_ne _ _ _ _ (fun h' => hw2 h'.symm)] at h2
            exact hdist w1 w2 i h1 h2
        · intro w' i h'
          by_cases hw' : w' = w
          · subst hw'; rw [getq_set_self _ _ _ hwlt] at h'; simp at h'
          · rw [getq_set_ne _ _ _ _ (fun h'' => hw' h''.symm)] at h'
            exact hclaim w' i h'
        · intro i hi hnc
          refine hwritten i hi fun w' => ?_
          by_cases hw' : w' = w
          · subst hw'; rw [hw]; simp
          · intro hcl
            exact hnc w' (by rwa [getq_set_ne _ _ _ _ (fun h' => hw' h'.symm)])
        · intro w' _
          omega
    | claimed i =>
      have hi := hclaim w i hw
      have hilt : i < s.results.length := lt_of_getq _ _ _ hi.2
      rw [poolStep_claimed n f s w i hw]
      unfold PoolInv
      dsimp only
      refine ⟨by simpa using hWl, by simpa using hn, hc, ?_, ?_, ?_, ?_, ?_⟩
      · intro w1 w2 j h1 h2
        by_cases hw1 : w1 = w
        · subst hw1; rw [getq_set_self _ _ _ hwlt] at h1; simp at h1
        · by_cases hw2 : w2 = w
          · subst hw2; rw [getq_set_self _ _ _ hwlt] at h2; simp at h2
          · rw [getq_set_ne _ _ _ _ (fun h' => hw1 h'.symm)] at h1
            rw [getq_set_ne _ _ _ _ (fun h' => hw2 h'.symm)] at h2
            exact hdist w1 w2 j h1 h2
      · intro w' j h'
        by_cases hw' : w' = w
        · subst hw'; rw [getq_set_self _ _ _ hwlt] at h'; simp at h'
        · rw [getq_set_ne _ _ _ _ (fun h'' => hw' h''.symm)] at h'
          obtain ⟨h1, h2⟩ := hclaim w' j h'
          have hji : j ≠ i := fun hji =>
            hw' (hdist w' w i (hji ▸ h') hw)
          rw [getq_set_ne _ _ _ _ (fun h'' => hji h''.symm)]
          exact ⟨h1, h2⟩
      · intro j hj hj2
        have hji : j ≠ i := by omega
        rw [getq_set_ne _ _ _ _ (fun h'' => hji h''.symm)]
        exact habove j hj hj2
      · intro j hj hnc
        by_cases hji : j = i
        · subst hji
          exact getq_set_self _ _ _ hilt
        · rw [getq_set_ne _ _ _ _ (fun h'' => hji h''.symm)]
          refine hwritten j hj fun w' => ?_
          by_cases hw' : w' = w
          · subst hw'
            rw [hw]
            intro hcl
            injection hcl with hcl
            injection hcl with hcl
            exact hji hcl.symm
          · intro hcl
            exact hnc w' (by rwa [getq_set_ne _ _ _ _ (fun h' => hw' h'.symm)])
      · intro w' h'
        by_cases hw' : w' = w
        · subst hw'; rw [getq_set_self _ _ _ hwlt] at h'; simp at h'
        · rw [getq_set_ne _ _ _ _ (fun h'' => hw' h''.symm)] at h'
          exact hdone w' h'
    | done =>
      rw [poolStep_done n f s w hw]
      exact ⟨hWl, hn, hc, hdist, hclaim, habove, hwritten, hdone⟩

theorem poolInv_run (n W : Nat) (f : Nat → β) :
    ∀ (sched : List Nat) (s : PoolState β), PoolInv n W f s →
      PoolInv n W f (poolRun n f s sched) := by
  intro sched
  induction sched with
  | nil => intro s h; exact h
  | cons w ws ih => intro s h; exact ih _ (poolInv_step n W f s w h)

/-- C1: under any event-loop schedule, pending claims of distinct workers
are always distinct indices taken from the shared cursor, a claimed slot is
still unwritten (so the claiming worker's store is that slot's only write),
and when every worker has finished, the results buffer holds exactly
`fn(items[i], i)` at position `i` — original candidate order, regardless of
completion order. -/
theorem C1_pull_based_pool (conc n : Nat) (f : Nat → β) (sched : List Nat)
    (hW : 1 ≤ conc) :
    (∀ w1 w2 i : Nat,
      (parallelMapRun conc n f sched).workers[w1]? = some (WStatus.claimed i) →
      (parallelMapRun conc n f sched).workers[w2]? = some (WStatus.claimed i) →
      w1 = w2) ∧
    (∀ w i : Nat, (parallelMapRun conc n f sched).workers[w]? = some (WStatus.claimed i) →
      i < (parallelMapRun conc n f sched).cursor ∧
      (parallelMapRun conc n f sched).results[i]? = some none) ∧
    (allDone (parallelMapRun conc n f sched) →
      (parallelMapRun conc n f sched).results =
        (List.range n).map fun i => some (f i)) := by
  have hinv : PoolInv n (min conc n) f (parallelMapRun conc n f sched) :=
    poolInv_run n (min conc n) f sched _ (poolInv_init conc n f)
  obtain ⟨hWl, hn, hc, hdist, hclaim, habove, hwritten, hdone⟩ := hinv
  refine ⟨hdist, hclaim, ?_⟩
  intro hall
  by_cases hn0 : n = 0
  · subst hn0
    have : (parallelMapRun conc 0 f sched).results = [] := List.length_eq_zero.1 hn
    simp [this]
  · have hcur : (parallelMapRun conc n f sched).cursor = n := by
      have hWpos : 0 < (parallelMapRun conc n f sched).workers.length := by
        rw [hWl]; omega
      obtain ⟨st, hst⟩ := getq_exists_of_lt _ 0 hWpos
      have hstd : st = WStatus.done := hall st (mem_of_getq _ _ _ hst)
      exact hdone 0 (hstd ▸ hst)
    have hlen : (parallelMapRun conc n f sched).results.length =
        ((List.range n).map fun i => some (f i)).length := by
      simp [hn]
    refine List.ext_getElem? fun i => ?_
    by_cases hi : i < n
    · have hres := hwritten i (by omega) fun w hcl => by
        have := hall _ (mem_of_getq _ _ _ hcl)
        simp at this
      rw [hres, List.getElem?_map, List.getElem?_range hi]
      rfl
    · have h1 : (parallelMapRun conc n f sched).results[i]? = none :=
        List.getElem?_eq_none (by omega)
      have h2 : ((List.range n).map fun i => some (f i))[i]? = none :=
        List.getElem?_eq_none (by simp; omega)
      rw [h1, h2]

/-- Witness for C1: two workers, three candidates, a schedule in which
worker 1's first result lands after worker 0 has already claimed index 2;
the buffer still comes out in candidate order. -/
theorem C1_pull_based_pool_witness :
    allDone (parallelMapRun 2 3 (fun i => i * 10) [0, 1, 0, 0, 1, 1, 0, 0]) ∧
    (parallelMapRun 2 3 (fun i => i * 10) [0, 1, 0, 0, 1, 1, 0, 0]).results =
      (List.range 3).map fun i => some (i * 10) :=
  ⟨by decide,
   (C1_pull_based_pool 2 3 (fun i => i * 10) [0, 1, 0, 0, 1, 1, 0, 0]
      (by decide)).2.2 (by decide)⟩

/-! ### Response-parser properties (C2) -/

/-- The greedy object regex in closed form: the span runs from the first
`\x7b` to the last `\x7d` of the whole input (when the latter comes
later), not to the brace closing the first object. -/
theorem objMatchFrom_eq (t : List Char) :
    objMatchFrom t =
      match firstIdxOf t '\x7b', lastIdxOf t '\x7d' with
      | some i, some j => if i < j then some (sliceN t i (j + 1)) else none
      | _, _ => none := by
  induction t with
  | nil => rfl
  | cons c rest ih =>
    simp only [objMatchFrom, firstIdxOf, lastIdxOf]
    by_cases hc : c = '\x7b'
    · rw [if_pos hc, if_pos hc]
      cases hl : lastIdxOf rest '\x7d' with
      | some j' =>
        have hj1 : 1 ≤ j' + 1 := by omega
        simp only [if_pos hj1]
        have hne : ¬ ('\x7b' : Char) = '\x7d' := by decide
        rw [hc]
        simp only [hne, if_false, if_pos (by omega : 0 < j' + 1)]
        simp [sliceN]
      | none =>
        have hne : ¬ c = '\x7d' := by rw [hc]; decide
        simp only [hne, if_false]
        rw [ih]
        cases hf : firstIdxOf rest '\x7b' <;> simp [hl]
    · rw [if_neg hc, if_neg hc]
      cases hl : lastIdxOf rest '\x7d' with
      | some j' =>
        cases hf : firstIdxOf rest '\x7b' with
        | some i' =>
          rw [ih, hf, hl]
          by_cases hij : i' < j'
          · have hslice : sliceN (c :: rest) (i' + 1) (j' + 1 + 1) = sliceN rest i' (j' + 1) := by
              simp only [sliceN, List.drop_succ_cons]
              congr 1
              omega
            simp [hij, hslice, show i' + 1 < j' + 1 from by omega]
          · simp [hij, show ¬ i' + 1 < j' + 1 from by omega]
        | none =>
          rw [ih, hf, hl]
          simp
      | none =>
        rw [ih, hl]
        by_cases hcd : c = '\x7d'
        · simp only [hcd, if_true, if_pos rfl]
          cases hf : firstIdxOf rest '\x7b' <;> simp
        · simp only [hcd, if_false, if_neg hcd]
          cases hf : firstIdxOf rest '\x7b' <;> simp

/-- Whatever `firstObjFrom` returns is a prefix of its input of its own
length. -/
theorem firstObjFrom_shape (u : List Char) :
    ∀ (b : Nat) (o : List Char), firstObjFrom u b = some o → o = u.take o.length := by
  intro b
  induction b with
  | zero => intro o h; simp [firstObjFrom] at h
  | succ k ih =>
    intro o h
    unfold firstObjFrom at h
    cases hk : firstObjFrom u k with
    | some o' =>
      rw [hk] at h
      injection h with h
      exact h ▸ ih o' hk
    | none =>
      rw [hk] at h
      cases hp : jsonParse (u.take k) with
      | none => rw [hp] at h; simp at h
      | some v =>
        rw [hp] at h
        cases v with
        | obj fs =>
          injection h with h
          subst h
          have hlen : (u.take k).length = min k u.length := by simp
          rw [hlen]
          rcases le_total k u.length with hle | hle
          · rw [min_eq_left hle]
          · rw [min_eq_right hle, List.take_length, List.take_of_length_le hle]
        | null => simp at h
        | bool b => simp at h
        | num l => simp at h
        | str s => simp at h
        | arr es => simp at h

/-- C2 (corrected): the code's object extraction is the greedy regex span —
from the first `\x7b` of the (fence-stripped) text to the *last* `\x7d` —
rather than balanced-brace extraction of the first top-level object; the
two agree exactly when the first object's closing brace is the last `\x7d`
of the text (in particular braces *inside* the object's strings are then
handled), and at most one record can result (the parse yields an
`Option`). -/
theorem C2_greedy_span (t : List Char) :
    (objMatchFrom t =
      match firstIdxOf t '\x7b', lastIdxOf t '\x7d' with
      | some i, some j => if i < j then some (sliceN t i (j + 1)) else none
      | _, _ => none) ∧
    (∀ (o : List Char) (i j : Nat), firstBalancedObject t = some o →
      firstIdxOf t '\x7b' = some i → lastIdxOf t '\x7d' = some j →
      2 ≤ o.length → j + 1 = i + o.length → objMatchFrom t = some o) := by
  refine ⟨objMatchFrom_eq t, ?_⟩
  intro o i j hbal hfi hlj hlen hj
  rw [objMatchFrom_eq t, hfi, hlj]
  simp only [if_pos (show i < j by omega)]
  have hshape : o = (t.drop i).take o.length := by
    unfold firstBalancedObject at hbal
    rw [hfi] at hbal
    exact firstObjFrom_shape (t.drop i) _ o hbal
  have harith : j + 1 - i = o.length := by omega
  rw [show sliceN t i (j + 1) = (t.drop i).take (j + 1 - i) from rfl, harith, ← hshape]

/-- Witness for C2 (corrected): a response whose advice string contains a
`\x7d` but whose object closes at the text's last `\x7d` is extracted
intact by the greedy span. -/
theorem C2_greedy_span_witness :
    firstBalancedObject "\x7b\"a\":\"x \x7d y\"\x7d".data =
      some "\x7b\"a\":\"x \x7d y\"\x7d".data ∧
    2 ≤ "\x7b\"a\":\"x \x7d y\"\x7d".data.length ∧
    objMatchFrom "\x7b\"a\":\"x \x7d y\"\x7d".data =
      some "\x7b\"a\":\"x \x7d y\"\x7d".data :=
  ⟨rfl, by decide,
   (C2_greedy_span "\x7b\"a\":\"x \x7d y\"\x7d".data).2
     "\x7b\"a\":\"x \x7d y\"\x7d".data 0 12 rfl rfl rfl (by decide) (by decide)⟩

/-- Counterexample for C2 as stated: on a response whose text continues
after the first top-level JSON object with a further closing brace, the
code extracts the greedy span from the first `\x7b` to the *last* `\x7d`
(which fails to parse) and yields no record, while balanced-brace
extraction of the first top-level object — the claimed behaviour, modelled
by `extractMemorySpec` — yields one. -/
theorem C2_counterexample :
    extractMemory "doc.md".data "T".data
        "\x7b\"trigger\":\"t\",\"rule\":\"r\"\x7d x\x7d".data = none ∧
    extractMemorySpec "doc.md".data "T".data
        "\x7b\"trigger\":\"t\",\"rule\":\"r\"\x7d x\x7d".data =
      some ⟨Json.str "t".data, Json.str "r".data, "doc.md".data, "T".data, none⟩ := by
  exact ⟨rfl, rfl⟩

end MHB
